import Mathlib

/-!
Shallow embedding of the ORKG search-portal extraction pipeline
(`app/rag/extract/{normalize,rules,classify,crawl,leaves,bundle}.py`).

Strings are modelled as Lean `String`; Python regular-expression searches of
the shape `\b(w1|w2|...)\b` with `re.I` are modelled by an explicit
word-boundary scanner over the lowercased character list.  Every alternative
occurring in the configured cue patterns begins and ends with a word
character, which the scanner's boundary tests rely on.  The HTTP client is
modelled as a finite association list from node ids to statement lists.
-/

namespace OrkgExtract

/-- Python regex word character `\w` restricted to ASCII: letters, digits, underscore. -/
def isWordChar (c : Char) : Bool := c.isAlphanum || c == '_'

/-- ASCII lowercasing of a character list, modelling Python `str.lower()` on ASCII data. -/
def lowerChars (s : List Char) : List Char := s.map Char.toLower

/-- ASCII lowercasing of a string. -/
def lowerStr (s : String) : String := String.mk (lowerChars s.data)

/-- Does the needle occur as a prefix of the haystack (both as char lists)? -/
def isPfx : List Char → List Char → Bool
  | [], _ => true
  | _ :: _, [] => false
  | a :: as, b :: bs => a == b && isPfx as bs

/-- Substring containment on char lists, modelling Python `needle in hay`. -/
def containsSub (needle : List Char) : List Char → Bool
  | [] => isPfx needle []
  | c :: rest => isPfx needle (c :: rest) || containsSub needle rest

/-- Case-insensitive substring test, needle given lowercase. -/
def containsCI (needle : String) (hay : String) : Bool :=
  containsSub needle.data (lowerChars hay.data)

/-- Word boundary after a consumed alternative: the source cue alternatives all end
with a word character, so the boundary holds iff the remainder is empty or starts
with a non-word character. -/
def wordEndOk : List Char → Bool
  | [] => true
  | c :: _ => !isWordChar c

/-- Match one alternative literally at the current position and require a trailing
word boundary. -/
def matchWordHere : List Char → List Char → Bool
  | [], hay => wordEndOk hay
  | _ :: _, [] => false
  | a :: as, b :: bs => a == b && matchWordHere as bs

/-- Scanner for `\b(alt1|alt2|...)\b` style searches.  `prev` records whether the
character just before the current position is a word character; the leading
boundary for an alternative starting with a word character `c` holds iff
`prev ≠ isWordChar c`, which for the configured alternatives (all starting with a
word character) reduces to `!prev`. -/
def searchWordsAux (words : List (List Char)) : Bool → List Char → Bool
  | _, [] => false
  | prev, c :: rest =>
      ((prev != isWordChar c) && words.any (fun w => matchWordHere w (c :: rest)))
        || searchWordsAux words (isWordChar c) rest

/-- Case-insensitive whole-word search, modelling `re.compile(r"\b(w1|...)\b", re.I).search`,
alternatives given lowercase. -/
def reSearchWords (words : List String) (s : String) : Bool :=
  searchWordsAux (words.map String.data) false (lowerChars s.data)

/-- Python truthiness of an optional string: present and non-empty. -/
def pyTruthy (a : Option String) : Bool :=
  match a with
  | some s => s ≠ ""
  | none => false

/-- Python `a or ""` for an optional string. -/
def orEmpty (a : Option String) : String := a.getD ""

/-- Python `a or b` on optional strings: `a` unless it is missing or empty. -/
def pyOrOpt (a b : Option String) : Option String :=
  match a with
  | some s => if s == "" then b else some s
  | none => b

/-- Python `(a or b or "")` on optional strings. -/
def pyOr2 (a b : Option String) : String := orEmpty (pyOrOpt a b)

/-- Characters stripped by Python `str.strip()` on ASCII data. -/
def isStripChar (c : Char) : Bool :=
  c == ' ' || c == '\t' || c == '\n' || c == '\r' || c == '\x0b' || c == '\x0c'

/-- Remove leading strip characters. -/
def dropStrip : List Char → List Char
  | [] => []
  | c :: rest => if isStripChar c then dropStrip rest else c :: rest

/-- Python `str.strip()`: remove leading and trailing whitespace. -/
def pyStrip (s : String) : String :=
  String.mk ((dropStrip (dropStrip s.data).reverse).reverse)

/-! Embedding of `app/rag/extract/normalize.py`. -/

/-- Alternatives of `NOISE_OBJECT_LABEL` (anchored `^...$` full match, `re.I`). -/
def noiseLabelWords : List String :=
  ["true", "false", "evaluation", "input data", "tool support",
   "evaluation method list", "list", "none", "null", "n/a"]

/-- Full-string case-insensitive match against a list of alternatives, modelling
an anchored `^(w1|...)$` pattern with `re.I` applied via `.match` to a string with
no trailing newline. -/
def fullMatchOneOf (words : List String) (s : String) : Bool :=
  words.any (fun w => lowerStr s == w)

/-- Embedding of `looks_like_url`: a non-empty string containing a
case-insensitive `http://` or `https://` scheme marker. -/
def looks_like_url (s : String) : Bool :=
  if s == "" then false
  else containsCI "http://" s || containsCI "https://" s

/-- Embedding of `NOISE_CONTAINING.search`: case-insensitive substring search for
the two phrase alternatives, or anchored full match for the `^...$` alternatives. -/
def noiseContainingSearch (s : String) : Bool :=
  containsCI "list of entities" s || containsCI "evaluation method entity" s
    || fullMatchOneOf ["entity", "property", "sub-property", "properties"] s

/-- Embedding of `is_noise_value`. -/
def is_noise_value (v : String) : Bool :=
  if v == "" then true
  else
    let v2 := pyStrip v
    if v2.length ≤ 2 then true
    else if fullMatchOneOf noiseLabelWords v2 then true
    else if noiseContainingSearch v2 then true
    else false

/-! Embedding of `app/rag/extract/rules.py` (the regex patterns are represented by
their lowercase alternative lists; all matching is case-insensitive as with `re.I`). -/

structure ExtractionRules where
  research_problem_classes : List String := ["ResearchProblem"]
  evidence_label : List String := ["evidence", "evaluation", "validation"]
  PROBLEM : List String :=
    ["problem", "goal", "aim", "challenge", "addresses", "research question",
     "abstract", "description", "summary"]
  DATA : List String := ["dataset", "data", "corpus", "benchmark"]
  EVALUATION : List String :=
    ["evaluat", "validat", "metric", "measure", "case study", "experiment",
     "user study", "property", "sub-property", "guideline", "threat to validity"]
  METHOD : List String :=
    ["method", "approach", "model", "algorithm", "architecture", "pipeline",
     "framework", "embedding", "reference architecture", "research object"]
  ARTIFACT : List String :=
    ["url", "code", "repo", "implementation", "demo", "video", "artifact",
     "package", "replication"]
  TOOL : List String :=
    ["tool support", "tool", "replication package", "replication", "available", "used"]
deriving Repr

/-- The default rule set, as constructed by `ExtractionRules()`. -/
def defaultRules : ExtractionRules := {}

/-! Data model: statements as fetched from the ORKG API.  Missing or `None`
dictionary entries are both modelled by `none`. -/

structure SubjRef where
  id : Option String := none
deriving DecidableEq, Repr

structure PredRef where
  id : Option String := none
  label : Option String := none
deriving DecidableEq, Repr

structure ObjRef where
  id : Option String := none
  label : Option String := none
  cls : Option String := none
deriving DecidableEq, Repr

structure Stmt where
  subject : Option SubjRef := none
  predicate : Option PredRef := none
  object : Option ObjRef := none
deriving DecidableEq, Repr

/-- Python `o_cls in rules.research_problem_classes` where `o_cls` may be `None`. -/
def optMem (o : Option String) (l : List String) : Bool :=
  match o with
  | some c => l.contains c
  | none => false

/-- The lowered predicate label `(pred.get("label") or pred.get("id") or "").lower()`
shared by the classifier and the leaf extractor. -/
def predLblOf (p : PredRef) : String := lowerStr (pyOr2 p.label p.id)

/-! Embedding of `app/rag/extract/classify.py`. -/

def classify_statement (st : Stmt) (rules : ExtractionRules)
    (contribution_label : String) : String :=
  let pred := st.predicate.getD {}
  let obj := st.object.getD {}
  let p_lbl := predLblOf pred
  let o_lbl := lowerStr (orEmpty obj.label)
  let o_cls := obj.cls
  if optMem o_cls rules.research_problem_classes then "problem"
  else if o_cls == some "literal" && looks_like_url o_lbl then "artifact"
  else if reSearchWords rules.evidence_label contribution_label then
    if reSearchWords rules.TOOL p_lbl || reSearchWords rules.TOOL o_lbl then "artifact"
    else if reSearchWords rules.DATA p_lbl || reSearchWords rules.DATA o_lbl then "data"
    else if reSearchWords rules.ARTIFACT p_lbl || looks_like_url o_lbl then "artifact"
    else "evaluation"
  else if reSearchWords rules.PROBLEM p_lbl || reSearchWords rules.PROBLEM o_lbl then "problem"
  else if reSearchWords rules.TOOL p_lbl || reSearchWords rules.TOOL o_lbl then "artifact"
  else if reSearchWords rules.DATA p_lbl || reSearchWords rules.DATA o_lbl then "data"
  else if reSearchWords rules.EVALUATION p_lbl || reSearchWords rules.EVALUATION o_lbl then
    "evaluation"
  else if reSearchWords rules.ARTIFACT p_lbl || looks_like_url o_lbl then "artifact"
  else if reSearchWords rules.METHOD p_lbl || reSearchWords rules.METHOD o_lbl then "method"
  else "other"

/-! Graph model: the HTTP client (`app/rag/orkg/client.py`, an out-of-scope
collaborator) is modelled as a finite association list from node ids to their
statement lists; `get_all_statements` returns the page-concatenated list. -/

abbrev Graph : Type := List (String × List Stmt)

def get_all_statements (g : Graph) (sid : String) : List Stmt :=
  match List.lookup sid g with
  | some l => l
  | none => []

/-- Embedding of `app/rag/core/settings.py` crawl limits (values configurable
via environment variables, defaults as in the source). -/
structure Settings where
  CRAWL_MAX_DEPTH : Nat := 4
  STATEMENTS_PAGE_SIZE : Nat := 200
  LEAVES_MAX_DEPTH : Nat := 6
  LEAVES_MAX_NODES : Nat := 400
deriving Repr

/-! Termination measure for the two breadth-first worklist loops: each queue
entry at depth `dep` weighs `(B+1)^(maxDepth+1-dep)` where `B` bounds the
out-degree of every node; processing a node replaces one entry by at most `B`
entries one level deeper. -/

def outBound (g : Graph) : Nat := (g.map (fun p => p.2.length)).foldr max 0

def queueMeasure (g : Graph) (max_depth : Nat) (queue : List (String × Nat)) : Nat :=
  (queue.map (fun q => (outBound g + 1) ^ (max_depth + 1 - q.2))).sum

def get_all_statements_length_le (g : Graph) (sid : String) :
    (get_all_statements g sid).length ≤ outBound g := by
  unfold get_all_statements outBound
  induction g with
  | nil => simp [List.lookup]
  | cons p rest ih =>
    by_cases hk : sid == p.1
    · simp [List.lookup, hk]
    · simp only [List.lookup, hk, List.map_cons, List.foldr_cons]
      exact Nat.le_trans ih (Nat.le_max_right _ _)

def sumConstMap {α : Type} (l : List α) (c : Nat) :
    ((l.map (fun _ => c)).sum) = l.length * c := by
  induction l with
  | nil => simp
  | cons x rest ih => simp [ih, Nat.succ_mul] ; omega

def measure_skip (g : Graph) (d : Nat) (q : String × Nat)
    (rest : List (String × Nat)) :
    queueMeasure g d rest < queueMeasure g d (q :: rest) := by
  have hp : 0 < (outBound g + 1) ^ (d + 1 - q.2) := Nat.pos_pow_of_pos _ (Nat.succ_pos _)
  simp only [queueMeasure, List.map_cons, List.sum_cons]
  omega

def measure_step (g : Graph) (d depth : Nat) (s : String)
    (hdep : depth ≤ d) (l : List String) (hl : l.length ≤ outBound g)
    (rest : List (String × Nat)) :
    queueMeasure g d (rest ++ l.map (fun oid => (oid, depth + 1))) <
      queueMeasure g d ((s, depth) :: rest) := by
  have hx : 0 < (outBound g + 1) ^ (d - depth) := Nat.pos_pow_of_pos _ (Nat.succ_pos _)
  have he : d + 1 - (depth + 1) = d - depth := by omega
  have he2 : d + 1 - depth = (d - depth) + 1 := by omega
  have hkey : l.length * (outBound g + 1) ^ (d - depth) <
      (outBound g + 1) ^ ((d - depth) + 1) := by
    calc l.length * (outBound g + 1) ^ (d - depth)
        ≤ outBound g * (outBound g + 1) ^ (d - depth) := Nat.mul_le_mul_right _ hl
      _ < (outBound g + 1) * (outBound g + 1) ^ (d - depth) := by
          have := Nat.mul_lt_mul_of_lt_of_le (Nat.lt_succ_self (outBound g))
            (Nat.le_refl ((outBound g + 1) ^ (d - depth))) hx
          exact this
      _ = (outBound g + 1) ^ ((d - depth) + 1) := by rw [pow_succ, Nat.mul_comm]
  simp only [queueMeasure, List.map_cons, List.sum_cons, List.map_append,
    List.sum_append, List.map_map]
  have hfun : ((fun q : String × Nat => (outBound g + 1) ^ (d + 1 - q.2)) ∘
      (fun oid => (oid, depth + 1))) = (fun _ : String => (outBound g + 1) ^ (d - depth)) := by
    funext oid
    simp [he]
  rw [hfun, sumConstMap, he2]
  linarith [hkey]

/-! Embedding of `app/rag/extract/crawl.py`. -/

/-- Resource-object ids enqueued from a node's statement list (in statement
order): objects whose `_class` is `resource` with a truthy id. -/
def crawlFollow (sts : List Stmt) : List String :=
  sts.filterMap (fun st =>
    let obj := st.object.getD {}
    if obj.cls == some "resource" then
      match obj.id with
      | some oid => if oid ≠ "" then some oid else none
      | none => none
    else none)

def crawlEnq (g : Graph) (follow : Bool) (max_depth depth : Nat) (sid : String) :
    List String :=
  if follow && decide (depth < max_depth) then crawlFollow (get_all_statements g sid)
  else []

def crawlEnq_le (g : Graph) (follow : Bool) (max_depth depth : Nat) (sid : String) :
    (crawlEnq g follow max_depth depth sid).length ≤ outBound g := by
  unfold crawlEnq
  by_cases h : follow && decide (depth < max_depth)
  · simp only [h, if_true]
    exact Nat.le_trans (List.length_filterMap_le _ _) (get_all_statements_length_le g sid)
  · simp [h]

/-- The worklist loop of `crawl_neighborhood`; returns the collected statement
list together with the final seen set (the node ids whose statement lists were
fetched, most recent first). -/
def crawlLoop (g : Graph) (max_depth : Nat) (follow : Bool) :
    List (String × Nat) → List String → List Stmt → List Stmt × List String
  | [], seen, acc => (acc, seen)
  | (sid, depth) :: rest, seen, acc =>
    if sid ∈ seen ∨ depth > max_depth then
      crawlLoop g max_depth follow rest seen acc
    else
      crawlLoop g max_depth follow
        (rest ++ (crawlEnq g follow max_depth depth sid).map (fun oid => (oid, depth + 1)))
        (sid :: seen) (acc ++ get_all_statements g sid)
termination_by queue _ _ => queueMeasure g max_depth queue
decreasing_by
  · exact measure_skip g max_depth (sid, depth) rest
  · rename_i h
    push_neg at h
    exact measure_step g max_depth depth sid (by omega) _
      (crawlEnq_le g follow max_depth depth sid) rest

def crawl_neighborhood (g : Graph) (root_id : String) (max_depth : Nat)
    (follow_resources : Bool) : List Stmt :=
  (crawlLoop g max_depth follow_resources [(root_id, 0)] [] []).1

/-- The node ids whose statement lists a crawl invocation fetches. -/
def crawlVisited (g : Graph) (root_id : String) (max_depth : Nat)
    (follow_resources : Bool) : List String :=
  (crawlLoop g max_depth follow_resources [(root_id, 0)] [] []).2

/-! Embedding of `app/rag/extract/leaves.py`. -/

/-- Per-statement handling of the loop body of `extract_semantic_leaves`:
returns the literal values emitted and the resource ids enqueued for this
statement. -/
def leavesStep (st : Stmt) : List String × List String :=
  let pred := st.predicate.getD {}
  let obj := st.object.getD {}
  let p_lbl := predLblOf pred
  let o_cls := obj.cls
  let o_lbl := pyStrip (orEmpty obj.label)
  if o_cls == some "literal" then
    if looks_like_url o_lbl then ([o_lbl], [])
    else if containsSub "name".data p_lbl.data then
      if !is_noise_value o_lbl then ([o_lbl], []) else ([], [])
    else
      if o_lbl ≠ "" && !is_noise_value o_lbl && o_lbl.length ≥ 4 then ([o_lbl], [])
      else ([], [])
  else if o_cls == some "resource" then
    match obj.id with
    | some oid => if oid ≠ "" then ([], [oid]) else ([], [])
    | none => ([], [])
  else ([], [])

/-- The inner `for st in client.get_all_statements(sid)` loop: concatenates the
per-statement emissions in statement order. -/
def leavesScan : List Stmt → List String × List String
  | [] => ([], [])
  | st :: rest =>
    let a := leavesStep st
    let b := leavesScan rest
    (a.1 ++ b.1, a.2 ++ b.2)

def leavesStep_enq_le (st : Stmt) : (leavesStep st).2.length ≤ 1 := by
  unfold leavesStep
  dsimp only
  repeat' split
  all_goals simp

def leavesScan_enq_le (sts : List Stmt) : (leavesScan sts).2.length ≤ sts.length := by
  induction sts with
  | nil => simp [leavesScan]
  | cons st rest ih =>
    have h1 := leavesStep_enq_le st
    simp only [leavesScan, List.length_append, List.length_cons]
    omega

/-- The worklist loop of `extract_semantic_leaves` (the `while queue and
len(seen) < max_nodes` loop). -/
def leavesLoop (g : Graph) (max_depth max_nodes : Nat) :
    List (String × Nat) → List String → List String → List String
  | [], _, values => values
  | (sid, depth) :: rest, seen, values =>
    if seen.length < max_nodes then
      if sid ∈ seen ∨ depth > max_depth then
        leavesLoop g max_depth max_nodes rest seen values
      else
        leavesLoop g max_depth max_nodes
          (rest ++ (leavesScan (get_all_statements g sid)).2.map
            (fun oid => (oid, depth + 1)))
          (sid :: seen)
          (values ++ (leavesScan (get_all_statements g sid)).1)
    else values
termination_by queue _ _ => queueMeasure g max_depth queue
decreasing_by
  · exact measure_skip g max_depth (sid, depth) rest
  · rename_i h
    push_neg at h
    exact measure_step g max_depth depth sid (by omega) _
      (Nat.le_trans (leavesScan_enq_le _) (get_all_statements_length_le g sid)) rest

/-- Order-preserving deduplication (the `out, seen = [], set()` loops used in
`leaves.py` and `bundle.py`); `seen` carries the already-emitted values. -/
def dedupAux (seen : List String) : List String → List String
  | [] => []
  | v :: rest => if v ∈ seen then dedupAux seen rest else v :: dedupAux (v :: seen) rest

def dedupList (l : List String) : List String := dedupAux [] l

def extract_semantic_leaves (g : Graph) (start_id : String)
    (max_depth max_nodes : Nat) : List String :=
  dedupList (leavesLoop g max_depth max_nodes [(start_id, 0)] [] [])

/-! Embedding of `app/rag/extract/bundle.py`. -/

structure NormObj where
  id : Option String
  label : Option String
  cls : Option String
deriving DecidableEq, Repr

structure NormStmt where
  subject_id : Option String
  predicate_label : Option String
  predicate_id : Option String
  object : NormObj
deriving DecidableEq, Repr

def normalize_statement (st : Stmt) : NormStmt :=
  let subj := st.subject.getD {}
  let pred := st.predicate.getD {}
  let obj := st.object.getD {}
  { subject_id := subj.id
    predicate_label := pyOrOpt pred.label pred.id
    predicate_id := pred.id
    object := { id := obj.id, label := obj.label, cls := obj.cls } }

/-- The value-collection loop of `_compact_bucket` (before deduplication). -/
def compactValues (g : Graph) (cfg : Settings) : List NormStmt → List String
  | [] => []
  | x :: rest =>
    let obj := x.object
    let o_lbl := pyStrip (orEmpty obj.label)
    (if obj.cls == some "resource" && pyTruthy obj.id then
        extract_semantic_leaves g (orEmpty obj.id) cfg.LEAVES_MAX_DEPTH cfg.LEAVES_MAX_NODES
      else if obj.cls == some "literal" then
        if o_lbl ≠ "" && !is_noise_value o_lbl then [o_lbl] else []
      else []) ++ compactValues g cfg rest

def compact_bucket (g : Graph) (cfg : Settings) (items : List NormStmt) : List String :=
  dedupList (compactValues g cfg items)

/-- The bucket map built by `extract_contribution_bundle`: normalized statements
of the crawled neighborhood whose classification is `tag`, in crawl order
(`defaultdict` append order). -/
def contribBuckets (g : Graph) (cfg : Settings) (rules : ExtractionRules)
    (cid clabel tag : String) : List NormStmt :=
  ((crawl_neighborhood g cid cfg.CRAWL_MAX_DEPTH true).filter
    (fun st => classify_statement st rules clabel == tag)).map normalize_statement

structure CompactFacts where
  problems : List String
  methods : List String
  data : List String
  evaluation : List String
  artifacts : List String
deriving DecidableEq, Repr

/-- The `compact` dict of `extract_contribution_bundle` as first assembled,
before the leakage guard reassigns `methods`. -/
def contribCompactPre (g : Graph) (cfg : Settings) (rules : ExtractionRules)
    (cid clabel : String) : CompactFacts :=
  { problems := compact_bucket g cfg (contribBuckets g cfg rules cid clabel "problem")
    methods := compact_bucket g cfg (contribBuckets g cfg rules cid clabel "method")
    data := compact_bucket g cfg (contribBuckets g cfg rules cid clabel "data")
    evaluation := compact_bucket g cfg (contribBuckets g cfg rules cid clabel "evaluation")
    artifacts := compact_bucket g cfg (contribBuckets g cfg rules cid clabel "artifact") }

structure ContributionBundle where
  id : String
  label : String
  compact : CompactFacts
deriving DecidableEq, Repr

def extract_contribution_bundle (g : Graph) (cfg : Settings) (rules : ExtractionRules)
    (contribution_id contribution_label : String) : ContributionBundle :=
  let compact := contribCompactPre g cfg rules contribution_id contribution_label
  { id := contribution_id
    label := contribution_label
    compact := { compact with
      methods := compact.methods.filter (fun m => !(compact.evaluation.contains m)) } }

/-- The `add_unique` helper of `merge_paper_core_from_contributions`. -/
def addUnique : List String → List String → List String
  | cur, [] => cur
  | cur, v :: vs => if v ∈ cur then addUnique cur vs else addUnique (cur ++ [v]) vs

/-- One contribution's update of the merged dict (all five keys). -/
def mergeStep (m : CompactFacts) (c : ContributionBundle) : CompactFacts :=
  { problems := addUnique m.problems c.compact.problems
    methods := addUnique m.methods c.compact.methods
    data := addUnique m.data c.compact.data
    evaluation := addUnique m.evaluation c.compact.evaluation
    artifacts := addUnique m.artifacts c.compact.artifacts }

/-- The merged dict before the paper-level leakage guard reassigns `methods`. -/
def merge_core (contribs : List ContributionBundle) : CompactFacts :=
  contribs.foldl mergeStep ⟨[], [], [], [], []⟩

def merge_paper_core_from_contributions (contribs : List ContributionBundle) :
    CompactFacts :=
  let merged := merge_core contribs
  { merged with
    methods := merged.methods.filter (fun m => !(merged.evaluation.contains m)) }

/-! Specification-side definitions, used to state refinement claims.  These are
written from the specification's words, to be compared with the definitions
translated from the source above. -/

/-- Spec-side merge (claim C2): for each field, the concatenation of that field
over the contributions in input order with every repeated string dropped after
its first occurrence, and the leakage guard re-applied to `methods`. -/
def mergeUnionField (contribs : List ContributionBundle)
    (f : CompactFacts → List String) : List String :=
  dedupList (contribs.flatMap (fun c => f c.compact))

def merge_spec (contribs : List ContributionBundle) : CompactFacts :=
  { problems := mergeUnionField contribs (fun c => c.problems)
    methods := (mergeUnionField contribs (fun c => c.methods)).filter
      (fun m => !((mergeUnionField contribs (fun c => c.evaluation)).contains m))
    data := mergeUnionField contribs (fun c => c.data)
    evaluation := mergeUnionField contribs (fun c => c.evaluation)
    artifacts := mergeUnionField contribs (fun c => c.artifacts) }

/-- Spec-side keep-first deduplication (claims C2/C7): the first occurrence of
every string is retained in place and every repeated string is dropped after
its first occurrence.  A keep-last deduplication (for example `[b, a]` from
`[a, b, a]`) differs from this definition, which yields `[a, b]`. -/
def dedupFirstSpec : List String → List String
  | [] => []
  | v :: rest => v :: dedupFirstSpec (rest.filter (fun x => decide (x ≠ v)))
termination_by l => l.length
decreasing_by
  simp only [List.length_cons]
  exact Nat.lt_succ_of_le (List.length_filter_le _ _)

/-- Spec-side literal-acceptance rule of the leaf extractor (claim C6): for a
statement whose object is a literal, its label is collected raw if URL-shaped;
otherwise, if the edge's predicate label contains the token `name`
(case-insensitive), it is collected iff it is not a noise value; otherwise it is
collected iff it is non-empty, not a noise value, and of length at least 4. -/
def leafClaimEmit (st : Stmt) : Option String :=
  let obj := st.object.getD {}
  let o_lbl := pyStrip (orEmpty obj.label)
  if obj.cls == some "literal" then
    if looks_like_url o_lbl then some o_lbl
    else if containsSub "name".data (predLblOf (st.predicate.getD {})).data then
      if is_noise_value o_lbl then none else some o_lbl
    else if o_lbl ≠ "" ∧ is_noise_value o_lbl = false ∧ 4 ≤ o_lbl.length then some o_lbl
    else none
  else none

/-- Successor node ids of a node in the statement graph: resource objects (with a
truthy id) of its statements; the edge relation of the crawl. -/
def succs (g : Graph) (v : String) : List String :=
  crawlFollow (get_all_statements g v)

/-- Node ids reachable from `root` within `n` hops along `succs` edges. -/
def reachList (g : Graph) (root : String) : Nat → List String
  | 0 => [root]
  | n + 1 => reachList g root n ++ (reachList g root n).flatMap (succs g)

/-! Concrete inputs used by the witness theorems. -/

/-- A statement with the given predicate label and object. -/
def mkStmt (plbl : String) (o : ObjRef) : Stmt :=
  { subject := some { id := some "S" }
    predicate := some { label := some plbl, id := some "P0" }
    object := some o }

/-- A one-node graph whose contribution has an evaluation-cue literal and a
method-cue literal carrying the same value. -/
def gLeak : Graph :=
  [("C", [mkStmt "uses metric" { id := none, label := some "F1 score", cls := some "literal" },
          mkStmt "uses method" { id := none, label := some "F1 score", cls := some "literal" }])]

/-- A two-node graph with a cycle back to the root. -/
def gCycle : Graph :=
  [("A", [mkStmt "part" { id := some "B", label := some "b", cls := some "resource" }]),
   ("B", [mkStmt "part" { id := some "A", label := some "a", cls := some "resource" }])]

/-- The classifier tie-break scenario from the specification. -/
def stTieBreak : Stmt :=
  { subject := some { id := some "S" }
    predicate := some { label := some "uses method", id := some "P1" }
    object := some { id := some "R9", label := some "Denoising", cls := some "ResearchProblem" } }

/-- The evidence-tab scenario: a literal matching no tool/data/artifact cue. -/
def stEvidence : Stmt :=
  { subject := some { id := some "S" }
    predicate := some { label := some "shows", id := some "P2" }
    object := some { id := none, label := some "accuracy gains", cls := some "literal" } }

/-- The same statement with the predicate label replaced by the predicate id
(used to state the id-fallback claim). -/
def withPredId (st : Stmt) : Stmt :=
  { st with predicate := some (PredRef.mk (st.predicate.getD {}).id (st.predicate.getD {}).id) }

/-- A statement whose predicate has an empty label and a cue-bearing id. -/
def stIdFallback : Stmt :=
  { subject := some { id := some "S" }
    predicate := some { label := some "", id := some "uses method" }
    object := some { id := none, label := some "Gradient descent", cls := some "literal" } }

/-! Helper lemmas about order-preserving deduplication and the merge fold. -/

theorem dedupAux_congr (l : List String) : ∀ s₁ s₂ : List String,
    (∀ x, x ∈ s₁ ↔ x ∈ s₂) → dedupAux s₁ l = dedupAux s₂ l := by
  induction l with
  | nil => intro s₁ s₂ _ ; rfl
  | cons v rest ih =>
    intro s₁ s₂ h
    simp only [dedupAux]
    by_cases hv : v ∈ s₁
    · rw [if_pos hv, if_pos ((h v).mp hv)]
      exact ih s₁ s₂ h
    · rw [if_neg hv, if_neg (fun hc => hv ((h v).mpr hc))]
      refine congrArg (v :: ·) (ih _ _ ?_)
      intro x
      simp [h x]

theorem dedupAux_append (l₁ : List String) : ∀ (l₂ s : List String),
    dedupAux s (l₁ ++ l₂) = dedupAux s l₁ ++ dedupAux (l₁ ++ s) l₂ := by
  induction l₁ with
  | nil => intro l₂ s ; simp [dedupAux]
  | cons v rest ih =>
    intro l₂ s
    rw [List.cons_append]
    simp only [dedupAux]
    by_cases hv : v ∈ s
    · simp only [if_pos hv]
      rw [ih]
      congr 1
      apply dedupAux_congr
      intro x
      simp only [List.mem_append, List.mem_cons]
      constructor
      · tauto
      · rintro ((rfl | h1) | h1) <;> tauto
    · simp only [if_neg hv]
      rw [ih, List.cons_append]
      congr 2
      apply dedupAux_congr
      intro x
      simp only [List.mem_append, List.mem_cons]
      tauto

theorem addUnique_eq_dedupAux : ∀ (vs cur : List String),
    addUnique cur vs = cur ++ dedupAux cur vs := by
  intro vs
  induction vs with
  | nil => intro cur ; simp [addUnique, dedupAux]
  | cons v rest ih =>
    intro cur
    simp only [addUnique, dedupAux]
    by_cases hv : v ∈ cur
    · rw [if_pos hv, if_pos hv, ih]
    · rw [if_neg hv, if_neg hv, ih]
      have hc : dedupAux (cur ++ [v]) rest = dedupAux (v :: cur) rest := by
        apply dedupAux_congr
        intro x
        simp only [List.mem_append, List.mem_cons, List.mem_singleton]
        tauto
      rw [hc]
      simp

theorem dedupAux_sublist (l : List String) : ∀ s, List.Sublist (dedupAux s l) l := by
  induction l with
  | nil => intro s ; simp [dedupAux]
  | cons v rest ih =>
    intro s
    simp only [dedupAux]
    by_cases hv : v ∈ s
    · rw [if_pos hv]
      exact List.Sublist.cons _ (ih s)
    · rw [if_neg hv]
      exact List.Sublist.cons₂ _ (ih _)

theorem dedupAux_mem (l : List String) : ∀ s x,
    x ∈ dedupAux s l ↔ x ∈ l ∧ x ∉ s := by
  induction l with
  | nil => intro s x ; simp [dedupAux]
  | cons v rest ih =>
    intro s x
    simp only [dedupAux]
    by_cases hv : v ∈ s
    · rw [if_pos hv, ih]
      simp only [List.mem_cons]
      constructor
      · tauto
      · rintro ⟨rfl | h1, h2⟩
        · exact absurd hv h2
        · exact ⟨h1, h2⟩
    · rw [if_neg hv]
      simp only [List.mem_cons, ih, List.mem_cons]
      constructor
      · rintro (rfl | ⟨h1, h2⟩)
        · exact ⟨Or.inl rfl, hv⟩
        · exact ⟨Or.inr h1, fun hc => h2 (Or.inr hc)⟩
      · rintro ⟨h1 | h1, h2⟩
        · exact Or.inl h1
        · by_cases hx : x = v
          · exact Or.inl hx
          · exact Or.inr ⟨h1, fun hc => hc.elim hx h2⟩

theorem dedupAux_nodup (l : List String) : ∀ s, (dedupAux s l).Nodup := by
  induction l with
  | nil => intro s ; simp [dedupAux]
  | cons v rest ih =>
    intro s
    simp only [dedupAux]
    by_cases hv : v ∈ s
    · rw [if_pos hv] ; exact ih s
    · rw [if_neg hv]
      refine List.nodup_cons.mpr ⟨fun hc => ?_, ih _⟩
      exact ((dedupAux_mem rest _ v).mp hc).2 (List.mem_cons_self _ _)

theorem dedupList_nodup (l : List String) : (dedupList l).Nodup :=
  dedupAux_nodup l []

theorem dedupList_sublist (l : List String) : List.Sublist (dedupList l) l :=
  dedupAux_sublist l []

theorem dedupList_mem (l : List String) (x : String) : x ∈ dedupList l ↔ x ∈ l := by
  rw [dedupList, dedupAux_mem]
  simp

theorem dedupAux_eq_first (l : List String) : ∀ seen : List String,
    dedupAux seen l = dedupFirstSpec (l.filter (fun x => decide (x ∉ seen))) := by
  induction l with
  | nil => intro seen ; simp [dedupAux, dedupFirstSpec]
  | cons v rest ih =>
    intro seen
    by_cases hv : v ∈ seen
    · rw [dedupAux, if_pos hv, ih seen]
      congr 1
      simp [List.filter_cons, hv]
    · rw [dedupAux, if_neg hv, ih (v :: seen)]
      have hhead : (v :: rest).filter (fun x => decide (x ∉ seen))
          = v :: rest.filter (fun x => decide (x ∉ seen)) := by
        simp [List.filter_cons, hv]
      rw [hhead, dedupFirstSpec, List.filter_filter]
      congr 2
      apply List.filter_congr
      intro x _
      simp [List.mem_cons, not_or, and_comm]

theorem dedupList_eq_first (l : List String) : dedupList l = dedupFirstSpec l := by
  rw [dedupList, dedupAux_eq_first]
  congr 1
  simp

theorem foldl_addUnique (f : ContributionBundle → List String) :
    ∀ (cs : List ContributionBundle) (acc : List String),
    cs.foldl (fun a c => addUnique a (f c)) acc = acc ++ dedupAux acc (cs.flatMap f) := by
  intro cs
  induction cs with
  | nil => intro acc ; simp [dedupAux]
  | cons c rest ih =>
    intro acc
    rw [List.foldl_cons, ih, addUnique_eq_dedupAux, List.flatMap_cons, dedupAux_append,
      ← List.append_assoc]
    congr 1
    apply dedupAux_congr
    intro x
    simp only [List.mem_append, dedupAux_mem]
    by_cases hacc : x ∈ acc <;> by_cases hfc : x ∈ f c <;> simp [hacc, hfc]

theorem merge_core_problems (cs : List ContributionBundle) : ∀ m : CompactFacts,
    (cs.foldl mergeStep m).problems
      = cs.foldl (fun a c => addUnique a c.compact.problems) m.problems := by
  induction cs with
  | nil => intro m ; rfl
  | cons c rest ih => intro m ; exact ih (mergeStep m c)

theorem merge_core_methods (cs : List ContributionBundle) : ∀ m : CompactFacts,
    (cs.foldl mergeStep m).methods
      = cs.foldl (fun a c => addUnique a c.compact.methods) m.methods := by
  induction cs with
  | nil => intro m ; rfl
  | cons c rest ih => intro m ; exact ih (mergeStep m c)

theorem merge_core_data (cs : List ContributionBundle) : ∀ m : CompactFacts,
    (cs.foldl mergeStep m).data
      = cs.foldl (fun a c => addUnique a c.compact.data) m.data := by
  induction cs with
  | nil => intro m ; rfl
  | cons c rest ih => intro m ; exact ih (mergeStep m c)

theorem merge_core_evaluation (cs : List ContributionBundle) : ∀ m : CompactFacts,
    (cs.foldl mergeStep m).evaluation
      = cs.foldl (fun a c => addUnique a c.compact.evaluation) m.evaluation := by
  induction cs with
  | nil => intro m ; rfl
  | cons c rest ih => intro m ; exact ih (mergeStep m c)

theorem merge_core_artifacts (cs : List ContributionBundle) : ∀ m : CompactFacts,
    (cs.foldl mergeStep m).artifacts
      = cs.foldl (fun a c => addUnique a c.compact.artifacts) m.artifacts := by
  induction cs with
  | nil => intro m ; rfl
  | cons c rest ih => intro m ; exact ih (mergeStep m c)

/-- The pre-guard merged dict is the order-preserving deduplicated union,
field by field. -/
theorem merge_core_eq (contribs : List ContributionBundle) :
    merge_core contribs =
      { problems := mergeUnionField contribs (fun c => c.problems)
        methods := mergeUnionField contribs (fun c => c.methods)
        data := mergeUnionField contribs (fun c => c.data)
        evaluation := mergeUnionField contribs (fun c => c.evaluation)
        artifacts := mergeUnionField contribs (fun c => c.artifacts) } := by
  have hp := merge_core_problems contribs ⟨[], [], [], [], []⟩
  have hm := merge_core_methods contribs ⟨[], [], [], [], []⟩
  have hd := merge_core_data contribs ⟨[], [], [], [], []⟩
  have he := merge_core_evaluation contribs ⟨[], [], [], [], []⟩
  have ha := merge_core_artifacts contribs ⟨[], [], [], [], []⟩
  rw [foldl_addUnique] at hp hm hd he ha
  cases hcore : merge_core contribs with
  | mk p m d e a =>
    rw [merge_core] at hcore
    simp only [mergeUnionField, dedupList]
    rw [hcore] at hp hm hd he ha
    simp only at hp hm hd he ha
    simp only [List.nil_append] at hp hm hd he ha
    rw [hp, hm, hd, he, ha]

/-! Reachability lemmas for the crawl claim. -/

theorem reach_mono_succ (g : Graph) (r : String) (n : Nat) :
    ∀ x ∈ reachList g r n, x ∈ reachList g r (n + 1) := by
  intro x hx
  simp only [reachList]
  exact List.mem_append.mpr (Or.inl hx)

theorem reach_mono (g : Graph) (r : String) {n m : Nat} (h : n ≤ m) :
    ∀ x ∈ reachList g r n, x ∈ reachList g r m := by
  induction m with
  | zero =>
    intro x hx
    have : n = 0 := Nat.le_zero.mp h
    exact this ▸ hx
  | succ m ih =>
    intro x hx
    by_cases hm : n = m + 1
    · exact hm ▸ hx
    · exact reach_mono_succ g r m x (ih (by omega) x hx)

theorem reach_step (g : Graph) (r : String) (n : Nat) (x y : String)
    (hx : x ∈ reachList g r n) (hy : y ∈ succs g x) :
    y ∈ reachList g r (n + 1) := by
  simp only [reachList]
  exact List.mem_append.mpr (Or.inr (List.mem_flatMap.mpr ⟨x, hx, hy⟩))

/-- Invariant of the crawl worklist loop: when every queue entry is reachable at
its recorded depth (bounded by the depth limit) and the seen set is
duplicate-free and reachable, the final seen set is duplicate-free and contained
in the nodes reachable within the depth bound. -/
theorem crawlLoop_visited_spec (g : Graph) (max_depth : Nat) (follow : Bool)
    (root : String) (queue : List (String × Nat)) (seen : List String)
    (acc : List Stmt)
    (hq : ∀ q ∈ queue, q.1 ∈ reachList g root q.2 ∧ q.2 ≤ max_depth)
    (hn : seen.Nodup)
    (hs : ∀ v ∈ seen, v ∈ reachList g root max_depth) :
    ((crawlLoop g max_depth follow queue seen acc).2.Nodup ∧
      ∀ v ∈ (crawlLoop g max_depth follow queue seen acc).2,
        v ∈ reachList g root max_depth) := by
  induction queue, seen, acc using crawlLoop.induct g max_depth follow with
  | case1 seen acc =>
    rw [crawlLoop]
    exact ⟨hn, hs⟩
  | case2 sid depth rest seen acc hcond ih =>
    rw [crawlLoop, if_pos hcond]
    exact ih (fun q hq' => hq q (List.mem_cons_of_mem _ hq')) hn hs
  | case3 sid depth rest seen acc hcond ih =>
    rw [crawlLoop, if_neg hcond]
    have hsid := hq (sid, depth) (List.mem_cons_self _ _)
    refine ih ?_ ?_ ?_
    · intro q hq'
      rcases List.mem_append.mp hq' with h1 | h1
      · exact hq q (List.mem_cons_of_mem _ h1)
      · rcases List.mem_map.mp h1 with ⟨oid, hoid, hq2⟩
        subst hq2
        rw [crawlEnq] at hoid
        by_cases hcnd : follow && decide (depth < max_depth)
        · rw [if_pos hcnd] at hoid
          have hdlt : depth < max_depth := of_decide_eq_true (Bool.and_elim_right hcnd)
          exact ⟨reach_step g root depth sid oid hsid.1 hoid, by omega⟩
        · rw [if_neg hcnd] at hoid
          exact absurd hoid (List.not_mem_nil _)
    · refine List.nodup_cons.mpr ⟨fun hc => hcond (Or.inl hc), hn⟩
    · intro v hv
      rcases List.mem_cons.mp hv with h1 | h1
      · exact h1 ▸ reach_mono g root hsid.2 sid hsid.1
      · exact hs v h1

/-! Claim theorems. -/

/-- C1: leakage-guard invariant — for every contribution bundle returned by
`extract_contribution_bundle` and every merged paper core returned by
`merge_paper_core_from_contributions`, no string occurs in both the evaluation
list and the methods list of the compact facts. -/
theorem claim_C1_leakage_guard :
    (∀ (g : Graph) (cfg : Settings) (rules : ExtractionRules) (cid clabel : String),
      List.Disjoint (extract_contribution_bundle g cfg rules cid clabel).compact.evaluation
        (extract_contribution_bundle g cfg rules cid clabel).compact.methods) ∧
    (∀ contribs : List ContributionBundle,
      List.Disjoint (merge_paper_core_from_contributions contribs).evaluation
        (merge_paper_core_from_contributions contribs).methods) := by
  constructor
  · intro g cfg rules cid clabel x hx hy
    have hy2 := (List.mem_filter.mp hy).2
    simp only [Bool.not_eq_true'] at hy2
    simp at hy2
    exact hy2 hx
  · intro contribs x hx hy
    have hy2 := (List.mem_filter.mp hy).2
    simp only [Bool.not_eq_true'] at hy2
    simp at hy2
    exact hy2 hx

/-- C1 witness: on a concrete one-node graph whose contribution carries the
value `F1 score` both under an evaluation cue and a method cue, the value sits
in the evaluation list and the guard keeps it out of the methods list. -/
theorem claim_C1_leakage_guard_witness :
    "F1 score" ∉ (extract_contribution_bundle gLeak {} defaultRules "C" "").compact.methods := by
  refine claim_C1_leakage_guard.1 gLeak {} defaultRules "C" "" ?_
  simp [extract_contribution_bundle, contribCompactPre, compact_bucket, contribBuckets,
    crawl_neighborhood, crawlLoop, crawlEnq, crawlFollow, get_all_statements, gLeak, mkStmt,
    classify_statement, compactValues, dedupList, dedupAux, normalize_statement]
  decide

/-- C2: paper-level merge is the order-preserving deduplicated union per field,
with the leakage guard re-applied to methods. -/
theorem claim_C2_merge_union (contribs : List ContributionBundle) :
    merge_paper_core_from_contributions contribs = merge_spec contribs := by
  simp only [merge_paper_core_from_contributions, merge_spec, merge_core_eq]

/-- C2 witness: the merge applied to the specification's example — contribution
problems `[X, Y]` and `[Y, Z]` merge to paper problems `[X, Y, Z]`. -/
theorem claim_C2_merge_union_witness :
    merge_paper_core_from_contributions
        [⟨"a", "", ⟨["X", "Y"], [], [], [], []⟩⟩, ⟨"b", "", ⟨["Y", "Z"], [], [], [], []⟩⟩]
      = merge_spec
        [⟨"a", "", ⟨["X", "Y"], [], [], [], []⟩⟩, ⟨"b", "", ⟨["Y", "Z"], [], [], [], []⟩⟩] :=
  claim_C2_merge_union _

/-- C3: the crawl worklist fetches the statement list of each node id at most
once per invocation (the visited list is duplicate-free), and every fetched
node is reachable from the root within `max_depth` hops.  Termination holds by
construction: `crawlLoop` is a total function, defined by well-founded
recursion on `queueMeasure`. -/
theorem claim_C3_crawl_visit_bound (g : Graph) (root : String) (d : Nat) (follow : Bool) :
    (crawlVisited g root d follow).Nodup ∧
      ∀ v ∈ crawlVisited g root d follow, v ∈ reachList g root d := by
  refine crawlLoop_visited_spec g d follow root [(root, 0)] [] [] ?_ List.nodup_nil ?_
  · intro q hq
    rw [List.mem_singleton] at hq
    subst hq
    refine ⟨List.mem_singleton.mpr rfl, Nat.zero_le d⟩
  · intro v hv
    exact absurd hv (List.not_mem_nil v)

/-- C3 witness: the bound applied to a two-node graph with a cycle back to the
root. -/
theorem claim_C3_crawl_visit_bound_witness :
    (crawlVisited gCycle "A" 1 true).Nodup :=
  (claim_C3_crawl_visit_bound gCycle "A" 1 true).1

/-- C4: for every statement whose object class is one of the configured
research-problem classes, classification returns `problem` regardless of the
predicate and object labels and of the contribution label. -/
theorem claim_C4_class_signal_dominates (st : Stmt) (rules : ExtractionRules)
    (clabel : String) (c : String)
    (hc : (st.object.getD {}).cls = some c)
    (hmem : c ∈ rules.research_problem_classes) :
    classify_statement st rules clabel = "problem" := by
  have hopt : optMem (st.object.getD {}).cls rules.research_problem_classes = true := by
    rw [hc]
    simp [optMem]
    exact hmem
  simp [classify_statement, hopt]

/-- C4 witness: the specification's scenario — object of class
`ResearchProblem` labelled `Denoising` under predicate `uses method` classifies
as `problem`. -/
theorem claim_C4_class_signal_dominates_witness :
    classify_statement stTieBreak defaultRules "Contribution 1" = "problem" :=
  claim_C4_class_signal_dominates stTieBreak defaultRules "Contribution 1"
    "ResearchProblem" rfl (by decide)

/-- C5: evidence-tab default — when the contribution label matches the
evidence-label regex, the object class is not a research-problem class, and
neither tool nor data nor artifact cues match (nor is the object label
URL-shaped), classification returns `evaluation`. -/
theorem claim_C5_evidence_default (st : Stmt) (rules : ExtractionRules) (clabel : String)
    (h1 : optMem (st.object.getD {}).cls rules.research_problem_classes = false)
    (h2 : reSearchWords rules.evidence_label clabel = true)
    (h3 : reSearchWords rules.TOOL (predLblOf (st.predicate.getD {})) = false)
    (h4 : reSearchWords rules.TOOL (lowerStr (orEmpty (st.object.getD {}).label)) = false)
    (h5 : reSearchWords rules.DATA (predLblOf (st.predicate.getD {})) = false)
    (h6 : reSearchWords rules.DATA (lowerStr (orEmpty (st.object.getD {}).label)) = false)
    (h7 : reSearchWords rules.ARTIFACT (predLblOf (st.predicate.getD {})) = false)
    (h8 : looks_like_url (lowerStr (orEmpty (st.object.getD {}).label)) = false) :
    classify_statement st rules clabel = "evaluation" := by
  simp [classify_statement, h1, h2, h3, h4, h5, h6, h7, h8]

/-- C5 witness: contribution label `Evidence` with a literal object matching no
tool, data or artifact cue classifies as `evaluation`, not `other`. -/
theorem claim_C5_evidence_default_witness :
    classify_statement stEvidence defaultRules "Evidence" = "evaluation" :=
  claim_C5_evidence_default stEvidence defaultRules "Evidence"
    rfl rfl rfl rfl rfl rfl rfl rfl

/-- Per-statement agreement of the source loop body with the spec-side
literal-acceptance rule. -/
theorem leavesStep_values_eq (st : Stmt) :
    (leavesStep st).1 = (leafClaimEmit st).toList := by
  unfold leavesStep leafClaimEmit
  dsimp only
  repeat' split
  all_goals simp_all

/-- C6: leaf-extractor literal acceptance — the values collected by the
statement loop of `extract_semantic_leaves` are exactly those accepted by the
claim's rule: URL-shaped literals raw; `name`-predicated literals unless noise;
other literals iff non-empty, non-noise and of length at least 4. -/
theorem claim_C6_leaf_literal_rule (sts : List Stmt) :
    (leavesScan sts).1 = sts.filterMap leafClaimEmit := by
  induction sts with
  | nil => rfl
  | cons st rest ih =>
    simp only [leavesScan, List.filterMap_cons]
    rw [leavesStep_values_eq st, ih]
    cases leafClaimEmit st <;> simp

/-- C6 witness: the rule applied to a concrete statement list containing a
URL-shaped literal, a short `name` literal and a short unnamed literal. -/
theorem claim_C6_leaf_literal_rule_witness :
    (leavesScan
        [mkStmt "homepage" { id := none, label := some "https://example.org/x", cls := some "literal" },
         mkStmt "has name" { id := none, label := some "GPT", cls := some "literal" },
         mkStmt "note" { id := none, label := some "abc", cls := some "literal" }]).1
      = [mkStmt "homepage" { id := none, label := some "https://example.org/x", cls := some "literal" },
         mkStmt "has name" { id := none, label := some "GPT", cls := some "literal" },
         mkStmt "note" { id := none, label := some "abc", cls := some "literal" }].filterMap
          leafClaimEmit :=
  claim_C6_leaf_literal_rule _

/-- C7: compact-list deduplication — every compact list the pipeline produces
(bucket compaction, leaf extraction, contribution compacts, merged paper core)
contains no element twice, and the deduplication keeps the first occurrence of
every string in place: bucket compaction and leaf extraction equal the
keep-first deduplication `dedupFirstSpec` of their collected value streams,
`dedupList` equals `dedupFirstSpec` on every input, and dedup output is a
subsequence of its input with unchanged membership. -/
theorem claim_C7_compact_dedup :
    (∀ (g : Graph) (cfg : Settings) (items : List NormStmt),
      (compact_bucket g cfg items).Nodup ∧
        compact_bucket g cfg items = dedupFirstSpec (compactValues g cfg items)) ∧
    (∀ (g : Graph) (s : String) (d n : Nat),
      (extract_semantic_leaves g s d n).Nodup ∧
        extract_semantic_leaves g s d n
          = dedupFirstSpec (leavesLoop g d n [(s, 0)] [] [])) ∧
    (∀ (g : Graph) (cfg : Settings) (rules : ExtractionRules) (cid cl : String),
      (extract_contribution_bundle g cfg rules cid cl).compact.problems.Nodup ∧
      (extract_contribution_bundle g cfg rules cid cl).compact.methods.Nodup ∧
      (extract_contribution_bundle g cfg rules cid cl).compact.data.Nodup ∧
      (extract_contribution_bundle g cfg rules cid cl).compact.evaluation.Nodup ∧
      (extract_contribution_bundle g cfg rules cid cl).compact.artifacts.Nodup) ∧
    (∀ contribs : List ContributionBundle,
      (merge_paper_core_from_contributions contribs).problems.Nodup ∧
      (merge_paper_core_from_contributions contribs).methods.Nodup ∧
      (merge_paper_core_from_contributions contribs).data.Nodup ∧
      (merge_paper_core_from_contributions contribs).evaluation.Nodup ∧
      (merge_paper_core_from_contributions contribs).artifacts.Nodup) ∧
    (∀ l : List String,
      dedupList l = dedupFirstSpec l ∧
        List.Sublist (dedupList l) l ∧ ∀ x, x ∈ dedupList l ↔ x ∈ l) := by
  refine ⟨?_, ?_, ?_, ?_, ?_⟩
  · intro g cfg items
    exact ⟨dedupList_nodup _, dedupList_eq_first _⟩
  · intro g s d n
    exact ⟨dedupList_nodup _, dedupList_eq_first _⟩
  · intro g cfg rules cid cl
    refine ⟨dedupList_nodup _, ?_, dedupList_nodup _, dedupList_nodup _, dedupList_nodup _⟩
    exact List.Nodup.filter _ (dedupList_nodup _)
  · intro contribs
    simp only [merge_paper_core_from_contributions, merge_core_eq, mergeUnionField]
    refine ⟨dedupList_nodup _, ?_, dedupList_nodup _, dedupList_nodup _, dedupList_nodup _⟩
    exact List.Nodup.filter _ (dedupList_nodup _)
  · intro l
    exact ⟨dedupList_eq_first l, dedupList_sublist l, dedupList_mem l⟩

/-- C7 witness: on a concrete list with a repeat, deduplication keeps the first
occurrence (the keep-first spec, which yields `[a, b]`, not `[b, a]`). -/
theorem claim_C7_compact_dedup_witness :
    dedupList ["a", "b", "a"] = dedupFirstSpec ["a", "b", "a"] ∧
      dedupFirstSpec ["a", "b", "a"] = ["a", "b"] :=
  ⟨(claim_C7_compact_dedup.2.2.2.2 ["a", "b", "a"]).1, by simp [dedupFirstSpec]⟩

/-- C8: classifier totality and determinism — for every statement (missing and
null fields included) and every contribution label, classification returns one
of the six bucket tags; a statement matching no rule (object class not a
research-problem class, object label not URL-shaped, contribution label not
evidence-like, and no cue regex matching the predicate or object label)
returns `other`; and equal inputs yield equal tags. -/
theorem claim_C8_classifier_total :
    (∀ (st : Stmt) (rules : ExtractionRules) (cl : String),
      classify_statement st rules cl ∈
        (["problem", "method", "data", "evaluation", "artifact", "other"] : List String)) ∧
    (∀ (st : Stmt) (rules : ExtractionRules) (cl : String),
      optMem (st.object.getD {}).cls rules.research_problem_classes = false →
      looks_like_url (lowerStr (orEmpty (st.object.getD {}).label)) = false →
      reSearchWords rules.evidence_label cl = false →
      reSearchWords rules.PROBLEM (predLblOf (st.predicate.getD {})) = false →
      reSearchWords rules.PROBLEM (lowerStr (orEmpty (st.object.getD {}).label)) = false →
      reSearchWords rules.TOOL (predLblOf (st.predicate.getD {})) = false →
      reSearchWords rules.TOOL (lowerStr (orEmpty (st.object.getD {}).label)) = false →
      reSearchWords rules.DATA (predLblOf (st.predicate.getD {})) = false →
      reSearchWords rules.DATA (lowerStr (orEmpty (st.object.getD {}).label)) = false →
      reSearchWords rules.EVALUATION (predLblOf (st.predicate.getD {})) = false →
      reSearchWords rules.EVALUATION (lowerStr (orEmpty (st.object.getD {}).label)) = false →
      reSearchWords rules.ARTIFACT (predLblOf (st.predicate.getD {})) = false →
      reSearchWords rules.METHOD (predLblOf (st.predicate.getD {})) = false →
      reSearchWords rules.METHOD (lowerStr (orEmpty (st.object.getD {}).label)) = false →
      classify_statement st rules cl = "other") ∧
    (∀ (st₁ st₂ : Stmt) (r₁ r₂ : ExtractionRules) (c₁ c₂ : String),
      st₁ = st₂ → r₁ = r₂ → c₁ = c₂ →
        classify_statement st₁ r₁ c₁ = classify_statement st₂ r₂ c₂) := by
  refine ⟨?_, ?_, ?_⟩
  · intro st rules cl
    unfold classify_statement
    dsimp only
    repeat' split
    all_goals simp
  · intro st rules cl h1 h2 h3 h4 h5 h6 h7 h8 h9 h10 h11 h12 h13 h14
    simp [classify_statement, h1, h2, h3, h4, h5, h6, h7, h8, h9, h10, h11, h12, h13, h14]
  · intro st₁ st₂ r₁ r₂ c₁ c₂ h1 h2 h3
    subst h1
    subst h2
    subst h3
    rfl

/-- C8 witness: the empty statement (all fields missing) classifies to a tag in
the six-tag set; it matches no rule and returns `other`, deterministically. -/
theorem claim_C8_classifier_total_witness :
    classify_statement {} defaultRules "" ∈
        (["problem", "method", "data", "evaluation", "artifact", "other"] : List String) ∧
      classify_statement {} defaultRules "" = "other" ∧
      classify_statement {} defaultRules "" = classify_statement {} defaultRules "" :=
  ⟨claim_C8_classifier_total.1 {} defaultRules "",
   claim_C8_classifier_total.2.1 {} defaultRules ""
     rfl rfl rfl rfl rfl rfl rfl rfl rfl rfl rfl rfl rfl rfl,
   claim_C8_classifier_total.2.2 {} {} defaultRules defaultRules "" "" rfl rfl rfl⟩

/-- C9: predicate-id fallback — when the predicate's label is missing or empty,
both the classifier and the leaf extractor behave as if the label were the
predicate's id (their shared lowered predicate label falls back to the id);
when both are absent or empty the lowered predicate label is the empty string,
on which no whole-word cue search can match. -/
theorem claim_C9_predicate_id_fallback (st : Stmt)
    (h : (st.predicate.getD {}).label = none ∨ (st.predicate.getD {}).label = some "") :
    (∀ (rules : ExtractionRules) (clabel : String),
      classify_statement st rules clabel =
        classify_statement (withPredId st) rules clabel) ∧
    (leavesStep st = leavesStep (withPredId st)) ∧
    (((st.predicate.getD {}).id = none ∨ (st.predicate.getD {}).id = some "") →
      predLblOf (st.predicate.getD {}) = "") ∧
    (∀ ws : List String, reSearchWords ws "" = false) := by
  have hp : predLblOf (st.predicate.getD {}) =
      predLblOf (PredRef.mk (st.predicate.getD {}).id (st.predicate.getD {}).id) := by
    rcases h with h | h <;>
    · cases hid : (st.predicate.getD {}).id with
      | none => simp [predLblOf, pyOr2, pyOrOpt, orEmpty, h, hid]
      | some s =>
        by_cases hs : s = "" <;>
          simp [predLblOf, pyOr2, pyOrOpt, orEmpty, h, hid, hs]
  refine ⟨?_, ?_, ?_, ?_⟩
  · intro rules clabel
    simp only [classify_statement, withPredId, Option.getD_some]
    rw [hp]
  · simp only [leavesStep, withPredId, Option.getD_some]
    rw [hp]
  · intro h2
    rcases h with h | h <;> rcases h2 with h2 | h2 <;>
      simp [predLblOf, pyOr2, pyOrOpt, orEmpty, h, h2, lowerStr, lowerChars]
  · intro ws
    rfl

/-- C9 witness: a predicate with empty label and id `uses method` classifies
identically to one whose label is that id. -/
theorem claim_C9_predicate_id_fallback_witness :
    classify_statement stIdFallback defaultRules "" =
      classify_statement (withPredId stIdFallback) defaultRules "" :=
  (claim_C9_predicate_id_fallback stIdFallback (Or.inr rfl)).1 defaultRules ""

/-- C10: the leakage guard touches only `methods` — in both the contribution
bundle and the paper merge, the problems, data, evaluation and artifacts lists
are exactly those produced by bucket compaction (respectively the union merge),
and the surviving methods form a subsequence (hence keep their relative order)
of the pre-guard methods. -/
theorem claim_C10_guard_frame :
    (∀ (g : Graph) (cfg : Settings) (rules : ExtractionRules) (cid cl : String),
      (extract_contribution_bundle g cfg rules cid cl).compact.problems
          = (contribCompactPre g cfg rules cid cl).problems ∧
      (extract_contribution_bundle g cfg rules cid cl).compact.data
          = (contribCompactPre g cfg rules cid cl).data ∧
      (extract_contribution_bundle g cfg rules cid cl).compact.evaluation
          = (contribCompactPre g cfg rules cid cl).evaluation ∧
      (extract_contribution_bundle g cfg rules cid cl).compact.artifacts
          = (contribCompactPre g cfg rules cid cl).artifacts ∧
      List.Sublist (extract_contribution_bundle g cfg rules cid cl).compact.methods
        (contribCompactPre g cfg rules cid cl).methods) ∧
    (∀ contribs : List ContributionBundle,
      (merge_paper_core_from_contributions contribs).problems
          = (merge_core contribs).problems ∧
      (merge_paper_core_from_contributions contribs).data = (merge_core contribs).data ∧
      (merge_paper_core_from_contributions contribs).evaluation
          = (merge_core contribs).evaluation ∧
      (merge_paper_core_from_contributions contribs).artifacts
          = (merge_core contribs).artifacts ∧
      List.Sublist (merge_paper_core_from_contributions contribs).methods
        (merge_core contribs).methods) := by
  constructor
  · intro g cfg rules cid cl
    exact ⟨rfl, rfl, rfl, rfl, List.filter_sublist _⟩
  · intro contribs
    exact ⟨rfl, rfl, rfl, rfl, List.filter_sublist _⟩

/-- C10 witness: the frame property applied to a concrete bundle and merge. -/
theorem claim_C10_guard_frame_witness :
    (merge_paper_core_from_contributions [⟨"a", "", ⟨["p"], ["m"], ["d"], ["m"], ["f"]⟩⟩]).problems
      = (merge_core [⟨"a", "", ⟨["p"], ["m"], ["d"], ["m"], ["f"]⟩⟩]).problems :=
  (claim_C10_guard_frame.2 [⟨"a", "", ⟨["p"], ["m"], ["d"], ["m"], ["f"]⟩⟩]).1

end OrkgExtract
